import Mathlib

/-!
# A shallow embedding of the cloudwatch-exporter collector

This file embeds `collector.go` of the cloudwatch-exporter repository:
the batched collection pipeline that lists CloudWatch metric identities,
partitions them into batches of at most 500, fetches one positional
`QueryResult` per identity, normalizes metric names, caches Prometheus
descriptors by dimension-name sequence, and emits one sample per metric
with at least one returned value.

Modelling conventions:
* The Prometheus channel `ch chan<- prometheus.Metric` becomes a list of
  emitted items (`Emit`), in emission order.
* A Go `panic` (both the explicit ones in `collectBatch` and the ones
  raised by `prometheus.MustNewConstMetric`, which runs in a goroutine
  spawned by the Prometheus registry, so a panic kills the process)
  becomes the `Outcome.fatal` constructor.
* The external Reporter collaborator (`reporter.ListMetrics`,
  `reporter.GetMetricsResults`) is a pair of functions returning
  `Except`; the batches actually passed to `GetMetricsResults` are
  collected in a call trace so that the batching behaviour is visible.
* Machine integers only appear as the batch index parsed by
  `strconv.Atoi`; it is modelled as `Option Int` (overflow is ignored:
  an overflowing index is out of range for every batch, and both the Go
  code and the model treat it as fatal).
* Go slices the result id by bytes (`(*result.Id)[1:]`); the Reporter
  contract makes ids ASCII (`"n<index>"`), where byte slicing coincides
  with dropping one character, which is how the model phrases it.
-/

/-- A CloudWatch dimension: one name/value label pair
(`types.Dimension`, with the two string pointers dereferenced). -/
structure Dimension where
  name : String
  value : String
deriving Repr, DecidableEq

/-- A CloudWatch metric identity (`types.Metric`): namespace, metric
name and an ordered dimension list. -/
structure Metric where
  «namespace» : String
  metricName : String
  dimensions : List Dimension
deriving Repr, DecidableEq

/-- One time-series result of a batched `GetMetricData` call
(`types.MetricDataResult`): the positional id and the returned values,
most recent first. -/
structure QueryResult where
  id : String
  values : List Float
deriving Repr

/-- A Prometheus descriptor (`prometheus.Desc`) as far as the collector
observes it: fully-qualified name, help string and variable label names. -/
structure Desc where
  fqName : String
  help : String
  labelNames : List String
deriving Repr, DecidableEq

/-- The error descriptor `c.errDesc` built in `newCollector`:
`prometheus.NewDesc("cloudwatch_error", "Error collecting metrics", nil, nil)`. -/
def errDesc : Desc :=
  { fqName := "cloudwatch_error", help := "Error collecting metrics", labelNames := [] }

/-- A constant sample as produced by `prometheus.MustNewConstMetric`:
descriptor, ordered label values and the float value. -/
structure Sample where
  desc : Desc
  labelValues : List String
  value : Float
deriving Repr

/-- One item sent on the output channel: either a data sample or the
error-signalling metric of `prometheus.NewInvalidMetric(c.errDesc, err)`. -/
inductive Emit where
  | sample : Sample → Emit
  | invalid : Desc → String → Emit
deriving Repr

/-- Is this emitted item a data sample? -/
def Emit.isSample : Emit → Bool
  | .sample _ => true
  | .invalid _ _ => false

/-- Is this emitted item an error-signalling (invalid) metric? -/
def Emit.isInvalid : Emit → Bool
  | .sample _ => false
  | .invalid _ _ => true

/-- Result of a computation that may end in a Go `panic`: the process
stops, carrying the panic message. -/
inductive Outcome (α : Type) where
  | ok : α → Outcome α
  | fatal : String → Outcome α
deriving Repr

/-- Did the computation end in a panic? -/
def Outcome.isFatalB : Outcome α → Bool
  | .ok _ => false
  | .fatal _ => true

/-- Go: `const batchSize = 500`. -/
def batchSize : Nat := 500

/-! ## The Prometheus name model

`prometheus.NewDesc` rejects invalid metric names, invalid label names
and duplicate label names by storing an error in the descriptor, and
`prometheus.MustNewConstMetric` panics on such a descriptor or on a
label-cardinality mismatch.  The validation predicates below are the
character classes of the Prometheus model regexps
`^[a-zA-Z_:][a-zA-Z0-9_:]*$` (metric names) and `^[a-zA-Z_][a-zA-Z0-9_]*$`
(label names, which additionally must not start with the reserved `__`). -/

/-- Character class of the body of a valid Prometheus metric name. -/
def metricNameChar (ch : Char) : Bool := ch.isAlphanum || ch = '_' || ch = ':'

/-- Character class of the body of a valid Prometheus label name. -/
def labelNameChar (ch : Char) : Bool := ch.isAlphanum || ch = '_'

/-- Go: `model.IsValidMetricName`, `^[a-zA-Z_:][a-zA-Z0-9_:]*$`. -/
def validMetricName (s : String) : Bool :=
  match s.data with
  | [] => false
  | c :: cs => (c.isAlpha || c = '_' || c = ':') && cs.all metricNameChar

/-- Does a character list start with the reserved `__`? -/
def doubleUnderscore : List Char → Bool
  | '_' :: '_' :: _ => true
  | _ => false

/-- Go: `checkLabelName`, `^[a-zA-Z_][a-zA-Z0-9_]*$` and not reserved (`__`). -/
def validLabelName (s : String) : Bool :=
  match s.data with
  | [] => false
  | c :: cs => (c.isAlpha || c = '_') && cs.all labelNameChar && !doubleUnderscore s.data

/-- Duplicate detection among variable label names, as in `prometheus.NewDesc`. -/
def nodupNames : List String → Bool
  | [] => true
  | s :: rest => !rest.contains s && nodupNames rest

/-- The validity of a descriptor built by
`prometheus.NewDesc(fqName, help, labelNames, nil)`: `desc.err` is `nil`
exactly when the metric name is valid, every variable label name is a
valid non-reserved label name, and the label names are distinct. -/
def descValid (fqName : String) (labelNames : List String) : Bool :=
  validMetricName fqName && labelNames.all validLabelName && nodupNames labelNames

/-! ## Name normalization

`prometheusMetricNameRegexp = regexp.MustCompile("[^a-zA-Z0-9_:]")` and
`strcase.SnakeCase` from `github.com/stoewer/go-strcase`. -/

/-- The complement of `[^a-zA-Z0-9_:]`: characters the regexp keeps. -/
def allowedChar (ch : Char) : Bool := ch.isAlphanum || ch = '_' || ch = ':'

/-- Go: `prometheusMetricNameRegexp.ReplaceAllString(s, "_")`; the regexp
matches one character at a time, so every disallowed character becomes
one underscore. -/
def replaceInvalid (s : String) : String :=
  String.mk (s.data.map fun ch => if allowedChar ch then ch else '_')

/-- The `strcase` delimiter characters: `-`, `_` and white space. -/
def isDelim (ch : Char) : Bool := ch = '-' || ch = '_' || ch.isWhitespace

/-- One step of the `strcase` lower-delimiter conversion: the buffer so
far plus the previous and current rune, consuming the next rune.
The zero rune marks "before the start" exactly as in the Go code. -/
def snakeStep (st : List Char × Char × Char) (next : Char) : List Char × Char × Char :=
  let buf := st.1
  let prev := st.2.1
  let curr := st.2.2
  let buf1 :=
    if isDelim curr then
      if !isDelim prev then buf ++ ['_'] else buf
    else if curr.isUpper then
      (if prev.isLower || (prev.isUpper && next.isLower) then buf ++ ['_'] else buf)
        ++ [curr.toLower]
    else if curr ≠ Char.ofNat 0 then buf ++ [curr]
    else buf
  (buf1, curr, next)

/-- Go: `strings.TrimSpace` on a character list. -/
def trimSpaceChars (l : List Char) : List Char :=
  ((l.dropWhile Char.isWhitespace).reverse.dropWhile Char.isWhitespace).reverse

/-- Go: `strcase.SnakeCase`; trim, walk the runes with a one-rune lookahead,
then flush the final rune (lower-cased, with a delimiter before an upper
rune that follows a lower rune). -/
def snakeCase (s : String) : String :=
  let t := trimSpaceChars s.data
  match t with
  | [] => ""
  | _ =>
    let res := t.foldl snakeStep ([], Char.ofNat 0, Char.ofNat 0)
    let buf := res.1
    let prev := res.2.1
    let curr := res.2.2
    String.mk
      ((if curr.isUpper && prev.isLower && prev ≠ Char.ofNat 0 then buf ++ ['_'] else buf)
        ++ [curr.toLower])

/-! ## `strconv.Atoi` -/

/-- Accumulating decimal parser over ASCII digits; any non-digit fails. -/
def parseDigitsAux (acc : Nat) : List Char → Option Nat
  | [] => some acc
  | c :: cs =>
    if c.isDigit then parseDigitsAux (acc * 10 + (c.toNat - ('0').toNat)) cs
    else none

/-- At least one digit, all digits. -/
def parseDigits : List Char → Option Nat
  | [] => none
  | c :: cs => parseDigitsAux 0 (c :: cs)

/-- Go: `strconv.Atoi`; optional sign, then one or more ASCII digits
(overflow ignored, see the file header). -/
def atoi : List Char → Option Int
  | [] => none
  | c :: rest =>
    if c = '+' then (parseDigits rest).map Int.ofNat
    else if c = '-' then (parseDigits rest).map fun n => -(n : Int)
    else (parseDigits (c :: rest)).map Int.ofNat

/-! ## The collector -/

/-- Go: `strings.Join(lns, " ")` exactly as `strings.Join` builds it. -/
def joinSpace : List String → String
  | [] => ""
  | [s] => s
  | s :: s2 :: rest => s ++ " " ++ joinSpace (s2 :: rest)

/-- The descriptor-cache key of a metric: its dimension names joined
with single spaces (`key := strings.Join(lns, " ")`). -/
def metricKey (m : Metric) : String :=
  joinSpace (m.dimensions.map (·.name))

/-- The normalized public name
`strcase.SnakeCase(re.ReplaceAllString(ns, "_")) + "_" + strcase.SnakeCase(re.ReplaceAllString(name, "_"))`. -/
def fqNameFor (m : Metric) : String :=
  snakeCase (replaceInvalid m.«namespace») ++ "_" ++ snakeCase (replaceInvalid m.metricName)

/-- The descriptor `collectMetric` builds on a cache miss. -/
def newDescFor (m : Metric) : Desc :=
  { fqName := fqNameFor m
  , help := "Cloudwatch Metric " ++ m.«namespace» ++ "/" ++ m.metricName
  , labelNames := m.dimensions.map (·.name) }

/-- The descriptor cache `descMap map[string]*prometheus.Desc`, as an
association list with the most recent insertion first. -/
abbrev DescMap : Type := List (String × Desc)

/-- The external Reporter collaborator, specified at its interface
boundary: listing matching metric identities and fetching one
positionally-addressed result per identity of a batch. -/
structure Reporter where
  ListMetrics : String → String → Except String (List Metric)
  GetMetricsResults : List Metric → Except String (List QueryResult)

/-- The collector state: the Reporter, the two filters and the
descriptor cache (the logger performs no state change and is dropped). -/
structure Collector where
  reporter : Reporter
  «namespace» : String
  metricName : String
  descMap : DescMap

/-- Go: `newCollector`; a fresh collector with an empty descriptor cache. -/
def newCollector (rep : Reporter) (ns mn : String) : Collector :=
  { reporter := rep, «namespace» := ns, metricName := mn, descMap := [] }

/-- Go: `Describe` publishes a single placeholder descriptor. -/
def Describe : Desc :=
  { fqName := "dummy", help := "dummy", labelNames := [] }

/-- Go: `collectMetric`; normalize names, look the dimension-name key up in
the cache (creating and caching a fresh descriptor on a miss), then emit
through `prometheus.MustNewConstMetric`, which panics if the descriptor
carries a construction error or if the label cardinality of the values
does not match the descriptor. -/
def collectMetric (dm : DescMap) (m : Metric) (value : Float) : Outcome (DescMap × Emit) :=
  let lvs := m.dimensions.map (·.value)
  let key := metricKey m
  match List.lookup key dm with
  | some desc =>
    if descValid desc.fqName desc.labelNames then
      if lvs.length = desc.labelNames.length then
        .ok (dm, .sample { desc := desc, labelValues := lvs, value := value })
      else .fatal ("inconsistent label cardinality")
    else .fatal ("invalid desc")
  | none =>
    let desc := newDescFor m
    let dm1 : DescMap := (key, desc) :: dm
    if descValid desc.fqName desc.labelNames then
      if lvs.length = desc.labelNames.length then
        .ok (dm1, .sample { desc := desc, labelValues := lvs, value := value })
      else .fatal ("inconsistent label cardinality")
    else .fatal ("invalid desc")

/-- The loop body of `collectBatch` over the returned results: parse the
id suffix (`strconv.Atoi((*result.Id)[1:])`, panicking on a parse
error), index the batch (panicking when the index is out of range, as
`metrics[idx]` does), skip results with no values, and otherwise emit a
sample carrying the first value. -/
def collectResults (dm : DescMap) (metrics : List Metric) :
    List QueryResult → Outcome (DescMap × List Emit)
  | [] => .ok (dm, [])
  | r :: rs =>
    match atoi (r.id.data.drop 1) with
    | none => .fatal ("invalid id")
    | some idx =>
      if h : 0 ≤ idx ∧ idx.toNat < metrics.length then
        let m := metrics.get ⟨idx.toNat, h.2⟩
        match r.values with
        | [] => collectResults dm metrics rs
        | v :: _ =>
          match collectMetric dm m v with
          | .fatal e => .fatal e
          | .ok (dm1, emit) =>
            match collectResults dm1 metrics rs with
            | .fatal e2 => .fatal e2
            | .ok (dm2, es) => .ok (dm2, emit :: es)
      else .fatal ("index out of range")

/-- Go: `collectBatch`; empty batches return without an upstream call; a
`GetMetricsResults` failure emits one invalid metric; a result count
differing from the batch count panics; otherwise the results are decoded
one by one.  The third component records the batch passed upstream. -/
def collectBatch (rep : Reporter) (dm : DescMap) (metrics : List Metric) :
    Outcome (DescMap × List Emit × List (List Metric)) :=
  match metrics with
  | [] => .ok (dm, [], [])
  | _ :: _ =>
    match rep.GetMetricsResults metrics with
    | .error e => .ok (dm, [.invalid errDesc e], [metrics])
    | .ok results =>
      if results.length = metrics.length then
        match collectResults dm metrics results with
        | .fatal e => .fatal e
        | .ok (dm1, es) => .ok (dm1, es, [metrics])
      else
        .fatal ("not same length: " ++ toString results.length ++ " != "
          ++ toString metrics.length)

/-- The `for _, metric := range metrics` loop of `Collect`: fill the
reusable `batch` slice, and every time the write index reaches
`batchSize`, reset it and process the full batch. -/
def collectFold (rep : Reporter) :
    List Metric → List Metric → Nat → DescMap → List Emit → List (List Metric) →
      Outcome (List Metric × Nat × DescMap × List Emit × List (List Metric))
  | [], batch, i, dm, es, cs => .ok (batch, i, dm, es, cs)
  | m :: ms, batch, i, dm, es, cs =>
    let batch1 := batch.set i m
    let i1 := i + 1
    if i1 < batchSize then collectFold rep ms batch1 i1 dm es cs
    else
      match collectBatch rep dm batch1 with
      | .fatal e => .fatal e
      | .ok (dm1, es1, cs1) => collectFold rep ms batch1 0 dm1 (es ++ es1) (cs ++ cs1)

/-- Go: `Collect`; list the metric identities (one invalid metric and return
on failure), allocate the batch slice of length `min(len(metrics), 500)`
(`make([]types.Metric, length, batchSize)`; its zero-value entries are
always overwritten before use), run the batching loop, then process the
final, possibly short, `batch[:i]`.  Returns the updated collector, the
emitted items and the trace of batches passed to `GetMetricsResults`. -/
def Collect (c : Collector) : Outcome (Collector × List Emit × List (List Metric)) :=
  match c.reporter.ListMetrics c.«namespace» c.metricName with
  | .error e => .ok (c, [.invalid errDesc e], [])
  | .ok metrics =>
    let length := if metrics.length > batchSize then batchSize else metrics.length
    let batch0 : List Metric :=
      List.replicate length { «namespace» := "", metricName := "", dimensions := [] }
    match collectFold c.reporter metrics batch0 0 c.descMap [] [] with
    | .fatal e => .fatal e
    | .ok (batch, i, dm, es, cs) =>
      match collectBatch c.reporter dm (batch.take i) with
      | .fatal e => .fatal e
      | .ok (dm2, es2, cs2) => .ok ({ c with descMap := dm2 }, es ++ es2, cs ++ cs2)

/-! ## Reference decomposition of the batching loop

`runBatches` processes an explicit list of batches in order; `chunks`
partitions a list into consecutive pieces of at most `n`.  The loop of
`Collect` is proved equal to `runBatches` over `chunks batchSize`. -/

/-- Process the given batches in order, accumulating emissions and the
upstream call trace. -/
def runBatches (rep : Reporter) (dm : DescMap) :
    List (List Metric) → Outcome (DescMap × List Emit × List (List Metric))
  | [] => .ok (dm, [], [])
  | b :: bs =>
    match collectBatch rep dm b with
    | .fatal e => .fatal e
    | .ok (dm1, es1, cs1) =>
      match runBatches rep dm1 bs with
      | .fatal e => .fatal e
      | .ok (dm2, es2, cs2) => .ok (dm2, es1 ++ es2, cs1 ++ cs2)

/-- Consecutive pieces of at most `n` elements (all pieces nonempty;
`chunks n [] = []`). -/
def chunks (n : Nat) : List α → List (List α)
  | [] => []
  | a :: l =>
    if n = 0 then [] else (a :: l).take n :: chunks n ((a :: l).drop n)
termination_by l => l.length
decreasing_by
  simp only [List.length_drop, List.length_cons]
  omega

/-! ## Decimal ids -/

/-- The decimal digit character of `d < 10`. -/
def digitChar10 (d : Nat) : Char := Char.ofNat (('0').toNat + d)

/-- Decimal digits with explicit fuel (structural recursion, so that the
kernel can evaluate ids); fuel `n + 1` always suffices. -/
def natDigitsAux : Nat → Nat → List Char
  | 0, _ => []
  | fuel + 1, n =>
    if n < 10 then [digitChar10 n] else natDigitsAux fuel (n / 10) ++ [digitChar10 (n % 10)]

/-- Decimal digits of a natural number, most significant first. -/
def natDigits (n : Nat) : List Char := natDigitsAux (n + 1) n

/-- The positional query id `"n<index>"` of the Reporter contract. -/
def posId (j : Nat) : String := "n" ++ String.mk (natDigits j)

/-! ## Specification predicates -/

/-- A nonempty, space-free string; on such key components the join with
single spaces is injective. -/
def GoodName (s : String) : Prop := s.data ≠ [] ∧ ' ' ∉ s.data

/-- The Reporter honours its contract on batch `b`: the call succeeds,
returns exactly one result per batch member, every result id decodes
(after stripping its first character) to its own position, and every
result carries at least one value. -/
def FaithfulOn (rep : Reporter) (b : List Metric) : Prop :=
  ∃ rs, rep.GetMetricsResults b = .ok rs ∧ rs.length = b.length ∧
    ∀ (j : Nat) (h : j < rs.length),
      atoi ((rs.get ⟨j, h⟩).id.data.drop 1) = some (j : Int) ∧ (rs.get ⟨j, h⟩).values ≠ []

/-- The metric's names survive Prometheus validation: the descriptor
`collectMetric` would build for it carries no construction error. -/
def PromValid (m : Metric) : Prop :=
  descValid (fqNameFor m) (m.dimensions.map (·.name)) = true

/-- Invariant of the descriptor cache: every entry is keyed by the
space-join of its descriptor's label names, and that descriptor passed
Prometheus validation when it was created. -/
def CacheInv (dm : DescMap) : Prop :=
  ∀ k d, (k, d) ∈ dm → k = joinSpace d.labelNames ∧ descValid d.fqName d.labelNames = true

/-! ## Concrete collaborators used to exercise the theorems -/

/-- Contract-honouring results for a batch: result `j` carries id
`"n<j>"` and the single value `1.0`. -/
def faithfulResults (b : List Metric) : List QueryResult :=
  (List.range b.length).map fun j => { id := posId j, values := [1.0] }

/-- A Reporter that lists exactly `ms` and honours the batch contract. -/
def listRep (ms : List Metric) : Reporter :=
  { ListMetrics := fun _ _ => .ok ms
  , GetMetricsResults := fun b => .ok (faithfulResults b) }

/-- A Reporter whose listing call fails. -/
def failListRep (e : String) : Reporter :=
  { ListMetrics := fun _ _ => .error e
  , GetMetricsResults := fun b => .ok (faithfulResults b) }

/-- A Reporter that lists `ms` but fails every full-size batch fetch:
with more than `batchSize` listed metrics this makes exactly the full
batches fail while the final short batch succeeds. -/
def failFullRep (ms : List Metric) : Reporter :=
  { ListMetrics := fun _ _ => .ok ms
  , GetMetricsResults := fun b =>
      if b.length = batchSize then .error ("boom") else .ok (faithfulResults b) }

/-- A list of `n` metric identities in namespace `AWS/EC2`, metric `NetworkIn`,
one `InstanceId` dimension each (mirroring the repository's test data). -/
def demoMetrics (n : Nat) : List Metric :=
  (List.range n).map fun k =>
    { «namespace» := "AWS/EC2", metricName := "NetworkIn"
    , dimensions := [{ name := "InstanceId", value := String.mk (natDigits k) }] }

/-! ## Concrete fixtures -/

/-- A metric whose dimension name `"a b"` is not a valid Prometheus
label name (CloudWatch permits spaces in dimension names). -/
def badDimMetric : Metric :=
  { «namespace» := "AWS/EC2", metricName := "NetworkIn"
  , dimensions := [{ name := "a b", value := "v" }] }

/-- A collector that lists exactly the bad-dimension metric. -/
def badDimCollector : Collector := newCollector (listRep [badDimMetric]) ("*") ("*")

/-- A collector over 567 faithful identities (the repository's test count). -/
def c1wCollector : Collector :=
  newCollector (listRep (demoMetrics 567)) ("AWS/EC2") ("NetworkIn")

/-- A collector whose listing call fails. -/
def c2wCollector : Collector := newCollector (failListRep ("nope")) ("*") ("*")

/-- A collector over 501 identities whose full-size batch fetch fails. -/
def c3wCollector : Collector :=
  newCollector (failFullRep (demoMetrics 501)) ("AWS/EC2") ("*")

/-- Small two-element batch reused by several fixtures. -/
def pairM0 : Metric :=
  { «namespace» := "A", metricName := "B", dimensions := [{ name := "l", value := "m0" }] }

/-- Second element of the small batch. -/
def pairM1 : Metric :=
  { «namespace» := "A", metricName := "B", dimensions := [{ name := "l", value := "m1" }] }

/-- A Reporter answering every batch with one empty-valued and one
single-valued result. -/
def mixValuesRep : Reporter :=
  { ListMetrics := fun _ _ => .ok []
  , GetMetricsResults := fun _ =>
      .ok [{ id := "n0", values := [] }, { id := "n1", values := [2.5] }] }

/-- A Reporter that returns no results for any batch (a count-contract
violation for every nonempty batch). -/
def wrongCountRep : Reporter :=
  { ListMetrics := fun _ _ => .ok [], GetMetricsResults := fun _ => .ok [] }

/-- A Reporter whose two results both decode to batch position 1: one id
with a non-`n` first character, one duplicated index. -/
def dupIdRep : Reporter :=
  { ListMetrics := fun _ _ => .ok []
  , GetMetricsResults := fun _ =>
      .ok [{ id := "x1", values := [1.0] }, { id := "n1", values := [2.0] }] }

/-- The descriptor created for the small batch's label shape. -/
def pairDesc : Desc :=
  { fqName := "a_b", help := "Cloudwatch Metric A/B", labelNames := ["l"] }

/-- The single-metric collector used to inspect one full `Collect` run. -/
def oneCollector : Collector := newCollector (listRep [pairM0]) ("A") ("B")

/-- The collector state after that run: the label shape `["l"]` cached. -/
def oneCollectorAfter : Collector :=
  { reporter := listRep [pairM0], «namespace» := "A", metricName := "B"
  , descMap := [("l", pairDesc)] }

/-- First metric of the cache-collision pair: label shape `["InstanceId"]`. -/
def ec2Metric : Metric :=
  { «namespace» := "AWS/EC2", metricName := "NetworkIn"
  , dimensions := [{ name := "InstanceId", value := "a" }] }

/-- Second metric: different namespace and name, same label shape. -/
def ebsMetric : Metric :=
  { «namespace» := "AWS/EBS", metricName := "VolumeWriteBytes"
  , dimensions := [{ name := "InstanceId", value := "b" }] }

/-! ## Lemmas: decimal ids parse back to their index -/

theorem parseDigitsAux_append (acc : Nat) (l1 l2 : List Char) :
    parseDigitsAux acc (l1 ++ l2) =
      match parseDigitsAux acc l1 with
      | some a => parseDigitsAux a l2
      | none => none := by
  induction l1 generalizing acc with
  | nil => simp [parseDigitsAux]
  | cons c cs ih =>
    simp only [List.cons_append, parseDigitsAux]
    by_cases h : c.isDigit
    · simp only [h, if_true]
      exact ih _
    · simp [h]

theorem digitChar10_isDigit (d : Nat) (h : d < 10) : (digitChar10 d).isDigit = true := by
  interval_cases d <;> decide

theorem digitChar10_val (d : Nat) (h : d < 10) : (digitChar10 d).toNat - ('0').toNat = d := by
  interval_cases d <;> decide

theorem digitChar10_ne_plus (d : Nat) (h : d < 10) : digitChar10 d ≠ '+' := by
  interval_cases d <;> decide

theorem digitChar10_ne_minus (d : Nat) (h : d < 10) : digitChar10 d ≠ '-' := by
  interval_cases d <;> decide

theorem natDigitsAux_head_digit :
    ∀ (fuel n : Nat), n < fuel →
      ∃ c cs, natDigitsAux fuel n = c :: cs ∧ c ≠ '+' ∧ c ≠ '-' := by
  intro fuel
  induction fuel with
  | zero => intro n h; omega
  | succ fuel ih =>
    intro n h
    by_cases h10 : n < 10
    · exact ⟨digitChar10 n, [], by simp [natDigitsAux, h10],
        digitChar10_ne_plus n h10, digitChar10_ne_minus n h10⟩
    · have hdiv : n / 10 < fuel := by
        have := Nat.div_lt_self (show 0 < n by omega) (show 1 < 10 by omega)
        omega
      obtain ⟨c, cs, hcons, hp, hm⟩ := ih (n / 10) hdiv
      exact ⟨c, cs ++ [digitChar10 (n % 10)],
        by simp only [natDigitsAux, h10, if_false]; rw [hcons]; simp, hp, hm⟩

theorem natDigits_head_digit (n : Nat) :
    ∃ c cs, natDigits n = c :: cs ∧ c ≠ '+' ∧ c ≠ '-' :=
  natDigitsAux_head_digit (n + 1) n (by omega)

theorem parseDigitsAux_natDigitsAux :
    ∀ (fuel n : Nat), n < fuel → ∀ acc,
      ∃ p, 0 < p ∧ parseDigitsAux acc (natDigitsAux fuel n) = some (acc * p + n) := by
  intro fuel
  induction fuel with
  | zero => intro n h; omega
  | succ fuel ih =>
    intro n h acc
    by_cases h10 : n < 10
    · refine ⟨10, by omega, ?_⟩
      simp only [natDigitsAux, h10, if_true, parseDigitsAux, digitChar10_isDigit n h10]
      interval_cases n <;> simp [digitChar10, parseDigitsAux]
    · have hdiv : n / 10 < fuel := by
        have := Nat.div_lt_self (show 0 < n by omega) (show 1 < 10 by omega)
        omega
      obtain ⟨p, hp, heq⟩ := ih (n / 10) hdiv acc
      refine ⟨p * 10, by omega, ?_⟩
      simp only [natDigitsAux, h10, if_false]
      rw [parseDigitsAux_append, heq]
      have hd : n % 10 < 10 := Nat.mod_lt _ (by omega)
      simp only [parseDigitsAux, digitChar10_isDigit _ hd, if_true, digitChar10_val _ hd]
      congr 1
      have hmod : 10 * (n / 10) + n % 10 = n := Nat.div_add_mod n 10
      calc (acc * p + n / 10) * 10 + n % 10
          = acc * (p * 10) + (10 * (n / 10) + n % 10) := by ring
        _ = acc * (p * 10) + n := by rw [hmod]

theorem parseDigits_natDigits (n : Nat) : parseDigits (natDigits n) = some n := by
  obtain ⟨c, cs, hcons, _, _⟩ := natDigits_head_digit n
  obtain ⟨p, _, heq⟩ := parseDigitsAux_natDigitsAux (n + 1) n (by omega) 0
  have heq2 : parseDigitsAux 0 (natDigits n) = some n := by
    show parseDigitsAux 0 (natDigitsAux (n + 1) n) = some n
    rw [heq]
    simp
  rw [hcons] at heq2 ⊢
  simpa [parseDigits] using heq2

theorem atoi_natDigits (n : Nat) : atoi (natDigits n) = some (n : Int) := by
  obtain ⟨c, cs, hcons, hp, hm⟩ := natDigits_head_digit n
  have hd := parseDigits_natDigits n
  rw [hcons] at hd ⊢
  simp [atoi, hp, hm, hd, Int.ofNat_eq_coe]

theorem posId_data_drop (j : Nat) : (posId j).data.drop 1 = natDigits j := by
  show (((String.mk ['n']) ++ String.mk (natDigits j)).data).drop 1 = natDigits j
  rw [String.data_append]
  rfl

theorem atoi_posId (j : Nat) : atoi ((posId j).data.drop 1) = some (j : Int) := by
  rw [posId_data_drop]
  exact atoi_natDigits j

/-! ## Lemmas: the space-join of valid label names is injective -/

theorem no_space_append_inj {l1 l2 t1 t2 : List Char}
    (h1 : ' ' ∉ l1) (h2 : ' ' ∉ l2) (he : l1 ++ ' ' :: t1 = l2 ++ ' ' :: t2) :
    l1 = l2 ∧ t1 = t2 := by
  induction l1 generalizing l2 with
  | nil =>
    cases l2 with
    | nil => simpa using he
    | cons c l2 =>
      exfalso
      have : ' ' = c := by simpa using congrArg (List.head?) he
      exact h2 (this ▸ List.mem_cons_self c l2)
  | cons c l1 ih =>
    cases l2 with
    | nil =>
      exfalso
      have : c = ' ' := by simpa using congrArg (List.head?) he
      exact h1 (this ▸ List.mem_cons_self c l1)
    | cons c2 l2 =>
      simp only [List.cons_append, List.cons.injEq] at he
      obtain ⟨hc, ht⟩ := he
      have := ih (fun hm => h1 (List.mem_cons_of_mem _ hm))
        (fun hm => h2 (List.mem_cons_of_mem _ hm)) ht
      exact ⟨by rw [hc, this.1], this.2⟩

theorem string_data_inj {s t : String} (h : s.data = t.data) : s = t := by
  cases s
  cases t
  simp_all

theorem joinSpace_data_cons (a b : String) (l : List String) :
    (joinSpace (a :: b :: l)).data = a.data ++ ' ' :: (joinSpace (b :: l)).data := by
  show ((a ++ " ") ++ joinSpace (b :: l)).data = _
  rw [String.data_append, String.data_append]
  simp

theorem joinSpace_inj :
    ∀ (l1 l2 : List String), (∀ s ∈ l1, GoodName s) → (∀ s ∈ l2, GoodName s) →
      joinSpace l1 = joinSpace l2 → l1 = l2 := by
  intro l1
  induction l1 with
  | nil =>
    intro l2 _ hg2 he
    cases l2 with
    | nil => rfl
    | cons b l2 =>
      exfalso
      cases l2 with
      | nil =>
        exact (hg2 b (by simp)).1 (by simpa using (congrArg String.data he).symm)
      | cons b2 l2 =>
        have := congrArg String.data he
        rw [joinSpace_data_cons] at this
        have hnil : ([] : List Char) = b.data ++ ' ' :: (joinSpace (b2 :: l2)).data := this
        have := congrArg List.length hnil
        simp at this
        omega
  | cons a l1 ih =>
    intro l2 hg1 hg2 he
    cases l2 with
    | nil =>
      exfalso
      cases l1 with
      | nil =>
        exact (hg1 a (by simp)).1 (by simpa using congrArg String.data he)
      | cons a2 l1 =>
        have := congrArg String.data he
        rw [joinSpace_data_cons] at this
        have hemp : (joinSpace ([] : List String)).data = [] := rfl
        rw [hemp] at this
        simp at this
    | cons b l2 =>
      cases l1 with
      | nil =>
        cases l2 with
        | nil => rw [show joinSpace [a] = a from rfl, show joinSpace [b] = b from rfl] at he; rw [he]
        | cons b2 l2 =>
          exfalso
          have hd := congrArg String.data he
          rw [joinSpace_data_cons] at hd
          have : ' ' ∈ a.data := by
            rw [show joinSpace [a] = a from rfl] at hd
            rw [hd]
            exact List.mem_append_right _ (List.mem_cons_self _ _)
          exact (hg1 a (by simp)).2 this
      | cons a2 l1 =>
        cases l2 with
        | nil =>
          exfalso
          have hd := congrArg String.data he
          rw [joinSpace_data_cons] at hd
          have : ' ' ∈ b.data := by
            rw [show joinSpace [b] = b from rfl] at hd
            rw [← hd]
            exact List.mem_append_right _ (List.mem_cons_self _ _)
          exact (hg2 b (by simp)).2 this
        | cons b2 l2 =>
          have hd := congrArg String.data he
          rw [joinSpace_data_cons, joinSpace_data_cons] at hd
          have hna : ' ' ∉ a.data := (hg1 a (by simp)).2
          have hnb : ' ' ∉ b.data := (hg2 b (by simp)).2
          obtain ⟨hab, ht⟩ := no_space_append_inj hna hnb hd
          have hrest := ih (b2 :: l2) (fun s hs => hg1 s (List.mem_cons_of_mem _ hs))
            (fun s hs => hg2 s (List.mem_cons_of_mem _ hs)) (string_data_inj ht)
          rw [string_data_inj hab, hrest]

/-! ## Lemmas: the descriptor cache -/

theorem descValid_labels_good {f : String} {L : List String}
    (h : descValid f L = true) : ∀ s ∈ L, GoodName s := by
  intro s hs
  have hall : L.all validLabelName = true := by
    unfold descValid at h
    simp only [Bool.and_eq_true] at h
    exact h.1.2
  have hv : validLabelName s = true := by
    rw [List.all_eq_true] at hall
    exact hall s hs
  unfold validLabelName at hv
  cases hd : s.data with
  | nil => rw [hd] at hv; cases hv
  | cons c cs =>
    rw [hd] at hv
    simp only [Bool.and_eq_true] at hv
    constructor
    · rw [hd]; simp
    · rw [hd]
      intro hmem
      rcases List.mem_cons.1 hmem with hc | hcs
      · have := hv.1.1
        rw [← hc] at this
        cases this
      · have := hv.1.2
        rw [List.all_eq_true] at this
        have := this ' ' hcs
        cases this

theorem lookup_mem {dm : DescMap} {k : String} {d : Desc}
    (h : List.lookup k dm = some d) : (k, d) ∈ dm := by
  induction dm with
  | nil => cases h
  | cons p dm ih =>
    obtain ⟨k1, d1⟩ := p
    rw [List.lookup] at h
    by_cases hk : k == k1
    · rw [hk] at h
      simp only [Option.some.injEq] at h
      have : k = k1 := by simpa using hk
      rw [this, ← h]
      exact List.mem_cons_self _ _
    · rw [Bool.not_eq_true] at hk
      rw [hk] at h
      exact List.mem_cons_of_mem _ (ih h)

theorem collectMetric_miss_eq {dm : DescMap} {m : Metric} (v : Float)
    (hl : List.lookup (metricKey m) dm = none) :
    collectMetric dm m v =
      if descValid (fqNameFor m) (m.dimensions.map (·.name)) = true then
        .ok ((metricKey m, newDescFor m) :: dm,
          .sample { desc := newDescFor m
                  , labelValues := m.dimensions.map (·.value), value := v })
      else .fatal ("invalid desc") := by
  simp only [collectMetric]
  rw [hl]
  simp [newDescFor, List.length_map]

theorem collectMetric_hit_eq {dm : DescMap} {m : Metric} {d : Desc} (v : Float)
    (hl : List.lookup (metricKey m) dm = some d)
    (hv : descValid d.fqName d.labelNames = true)
    (hlen : m.dimensions.length = d.labelNames.length) :
    collectMetric dm m v =
      .ok (dm, .sample { desc := d, labelValues := m.dimensions.map (·.value), value := v }) := by
  simp only [collectMetric]
  rw [hl]
  simp [hv, List.length_map, hlen]

theorem collectMetric_card {dm dm' : DescMap} {m : Metric} {v : Float} {s : Sample}
    (h : collectMetric dm m v = .ok (dm', .sample s)) :
    s.labelValues.length = s.desc.labelNames.length := by
  simp only [collectMetric] at h
  split at h
  · split at h
    · split at h
      · next hc =>
        simp only [Outcome.ok.injEq, Prod.mk.injEq, Emit.sample.injEq] at h
        rw [← h.2]
        simpa using hc
      · cases h
    · cases h
  · split at h
    · split at h
      · next hc =>
        simp only [Outcome.ok.injEq, Prod.mk.injEq, Emit.sample.injEq] at h
        rw [← h.2]
        simpa using hc
      · cases h
    · cases h

theorem collectMetric_mono {dm dm' : DescMap} {m : Metric} {v : Float} {e : Emit}
    (h : collectMetric dm m v = .ok (dm', e)) : ∀ p ∈ dm, p ∈ dm' := by
  simp only [collectMetric] at h
  split at h
  · split at h
    · split at h
      · simp only [Outcome.ok.injEq, Prod.mk.injEq] at h
        rw [← h.1]
        exact fun p hp => hp
      · cases h
    · cases h
  · split at h
    · split at h
      · simp only [Outcome.ok.injEq, Prod.mk.injEq] at h
        rw [← h.1]
        exact fun p hp => List.mem_cons_of_mem _ hp
      · cases h
    · cases h

theorem collectMetric_ok {dm : DescMap} {m : Metric} (v : Float)
    (hinv : CacheInv dm) (hm : PromValid m) :
    ∃ dm' s, collectMetric dm m v = .ok (dm', .sample s) ∧
      s.value = v ∧ s.labelValues = m.dimensions.map (·.value) ∧
      s.desc.labelNames = m.dimensions.map (·.name) ∧
      CacheInv dm' ∧ (∀ p ∈ dm, p ∈ dm') := by
  cases hl : List.lookup (metricKey m) dm with
  | some d =>
    obtain ⟨hkey, hvalid⟩ := hinv _ _ (lookup_mem hl)
    have hnames : d.labelNames = m.dimensions.map (·.name) := by
      have hgood1 : ∀ s ∈ d.labelNames, GoodName s := descValid_labels_good hvalid
      have hgood2 : ∀ s ∈ m.dimensions.map (·.name), GoodName s := descValid_labels_good hm
      exact joinSpace_inj _ _ hgood1 hgood2 hkey.symm
    have hlen : m.dimensions.length = d.labelNames.length := by
      rw [hnames, List.length_map]
    refine ⟨dm, _, collectMetric_hit_eq v hl hvalid hlen, rfl, rfl, hnames, hinv, fun p hp => hp⟩
  | none =>
    have hm2 : descValid (fqNameFor m) (m.dimensions.map (·.name)) = true := hm
    rw [collectMetric_miss_eq v hl, if_pos hm2]
    refine ⟨_, _, rfl, rfl, rfl, rfl, ?_, fun p hp => List.mem_cons_of_mem _ hp⟩
    intro k d hkd
    rcases List.mem_cons.1 hkd with hhead | htail
    · have hk : k = metricKey m := congrArg Prod.fst hhead
      have hd : d = newDescFor m := congrArg Prod.snd hhead
      subst hk
      subst hd
      exact ⟨rfl, hm⟩
    · exact hinv _ _ htail

/-! ## Lemmas: decoding a batch's results -/

theorem collectResults_spec (metrics : List Metric) :
    ∀ (results : List QueryResult) (dm : DescMap),
      CacheInv dm → (∀ m ∈ metrics, PromValid m) →
      (∀ r ∈ results, ∃ j : Nat,
        atoi (r.id.data.drop 1) = some (j : Int) ∧ j < metrics.length) →
      ∃ dm' ess, collectResults dm metrics results = .ok (dm', ess.flatten) ∧
        CacheInv dm' ∧ (∀ p ∈ dm, p ∈ dm') ∧
        List.Forall₂ (fun (r : QueryResult) (es : List Emit) =>
          (r.values = [] ∧ es = []) ∨
            ∃ s v vs, r.values = v :: vs ∧ es = [Emit.sample s] ∧ s.value = v)
          results ess := by
  intro results
  induction results with
  | nil =>
    intro dm hinv _ _
    exact ⟨dm, [], rfl, hinv, fun p hp => hp, List.Forall₂.nil⟩
  | cons r rs ih =>
    intro dm hinv hgood hids
    obtain ⟨j, hj, hjlt⟩ := hids r (List.mem_cons_self _ _)
    have hcond : 0 ≤ (j : Int) ∧ ((j : Int)).toNat < metrics.length :=
      ⟨Int.natCast_nonneg j, by simpa using hjlt⟩
    cases hval : r.values with
    | nil =>
      obtain ⟨dm', ess, hres, hinv', hmono, hfa⟩ :=
        ih dm hinv hgood (fun q hq => hids q (List.mem_cons_of_mem _ hq))
      refine ⟨dm', [] :: ess, ?_, hinv', hmono, List.Forall₂.cons (Or.inl ⟨hval, rfl⟩) hfa⟩
      simp only [collectResults, hj]
      rw [dif_pos hcond]
      simp only [hval]
      simpa using hres
    | cons v vs =>
      have hm : PromValid (metrics.get ⟨((j : Int)).toNat, hcond.2⟩) :=
        hgood _ (metrics.get_mem _ _)
      obtain ⟨dm1, smp, hcm, hsv, hslv, hsln, hinv1, hmono1⟩ := collectMetric_ok v hinv hm
      obtain ⟨dm2, ess, hres, hinv2, hmono2, hfa⟩ :=
        ih dm1 hinv1 hgood (fun q hq => hids q (List.mem_cons_of_mem _ hq))
      refine ⟨dm2, [Emit.sample smp] :: ess, ?_, hinv2,
        fun p hp => hmono2 _ (hmono1 _ hp),
        List.Forall₂.cons (Or.inr ⟨smp, v, vs, hval, rfl, hsv⟩) hfa⟩
      simp only [collectResults, hj]
      rw [dif_pos hcond]
      simp only [hval, hcm, hres]
      simp

theorem contrib_join_length {rs : List QueryResult} {ess : List (List Emit)}
    (hfa : List.Forall₂ (fun (r : QueryResult) (es : List Emit) =>
      (r.values = [] ∧ es = []) ∨
        ∃ s v vs, r.values = v :: vs ∧ es = [Emit.sample s] ∧ s.value = v) rs ess)
    (hne : ∀ r ∈ rs, r.values ≠ []) :
    ess.flatten.length = rs.length ∧ ∀ e ∈ ess.flatten, e.isSample = true := by
  induction hfa with
  | nil => simp
  | @cons r es rs2 ess2 hc _ ih =>
    have hrest := ih (fun q hq => hne q (List.mem_cons_of_mem _ hq))
    rcases hc with ⟨hnil, _⟩ | ⟨s, v, vs, _, hes, _⟩
    · exact absurd hnil (hne r (List.mem_cons_self _ _))
    · subst hes
      constructor
      · simp [hrest.1]
      · intro e he
        have hj2 : ([Emit.sample s] :: ess2).flatten = Emit.sample s :: ess2.flatten := by simp
        rw [hj2] at he
        rcases List.mem_cons.1 he with h1 | h2
        · rw [h1]
          rfl
        · exact hrest.2 e h2

theorem collectResults_card {metrics : List Metric} :
    ∀ {results : List QueryResult} {dm dm' : DescMap} {es : List Emit},
      collectResults dm metrics results = .ok (dm', es) →
      ∀ s, Emit.sample s ∈ es → s.labelValues.length = s.desc.labelNames.length := by
  intro results
  induction results with
  | nil =>
    intro dm dm' es h s hs
    simp only [collectResults, Outcome.ok.injEq, Prod.mk.injEq] at h
    rw [← h.2] at hs
    cases hs
  | cons r rs ih =>
    intro dm dm' es h s hs
    simp only [collectResults] at h
    split at h
    · cases h
    · split at h
      · split at h
        · exact ih h s hs
        · split at h
          · cases h
          · next dm1 emit heq1 =>
            split at h
            · cases h
            · next dm2 es2 heq2 =>
              simp only [Outcome.ok.injEq, Prod.mk.injEq] at h
              rw [← h.2] at hs
              rcases List.mem_cons.1 hs with h1 | h2
              · rw [← h1] at heq1
                exact collectMetric_card heq1
              · exact ih heq2 s h2
      · cases h

/-! ## Lemmas: one batch -/

theorem collectResults_mono {metrics : List Metric} :
    ∀ {rs : List QueryResult} {dm dm' : DescMap} {es : List Emit},
      collectResults dm metrics rs = .ok (dm', es) → ∀ p ∈ dm, p ∈ dm' := by
  intro rs
  induction rs with
  | nil =>
    intro dm dm' es h
    simp only [collectResults, Outcome.ok.injEq, Prod.mk.injEq] at h
    rw [← h.1]
    exact fun p hp => hp
  | cons r rs ih =>
    intro dm dm' es h
    simp only [collectResults] at h
    split at h
    · cases h
    · split at h
      · split at h
        · exact ih h
        · split at h
          · cases h
          · next dm1 emit heq1 =>
            split at h
            · cases h
            · next dm2 es2 heq2 =>
              simp only [Outcome.ok.injEq, Prod.mk.injEq] at h
              rw [← h.1]
              exact fun p hp => ih heq2 p (collectMetric_mono heq1 p hp)
      · cases h

theorem collectBatch_error_eq {rep : Reporter} {dm : DescMap} {m0 : Metric}
    {ms : List Metric} {e : String}
    (he : rep.GetMetricsResults (m0 :: ms) = .error e) :
    collectBatch rep dm (m0 :: ms) = .ok (dm, [.invalid errDesc e], [m0 :: ms]) := by
  simp only [collectBatch, he]

theorem collectBatch_mono {rep : Reporter} {dm : DescMap} {b : List Metric}
    {dm' : DescMap} {es : List Emit} {cs : List (List Metric)}
    (h : collectBatch rep dm b = .ok (dm', es, cs)) : ∀ p ∈ dm, p ∈ dm' := by
  cases b with
  | nil =>
    simp only [collectBatch, Outcome.ok.injEq, Prod.mk.injEq] at h
    rw [← h.1]
    exact fun p hp => hp
  | cons m0 ms =>
    simp only [collectBatch] at h
    split at h
    · simp only [Outcome.ok.injEq, Prod.mk.injEq] at h
      rw [← h.1]
      exact fun p hp => hp
    · split at h
      · split at h
        · cases h
        · next dm1 es1 heq =>
          simp only [Outcome.ok.injEq, Prod.mk.injEq] at h
          rw [← h.1]
          exact collectResults_mono heq
      · cases h

theorem collectBatch_card {rep : Reporter} {dm : DescMap} {b : List Metric}
    {dm' : DescMap} {es : List Emit} {cs : List (List Metric)}
    (h : collectBatch rep dm b = .ok (dm', es, cs)) :
    ∀ s, Emit.sample s ∈ es → s.labelValues.length = s.desc.labelNames.length := by
  cases b with
  | nil =>
    simp only [collectBatch, Outcome.ok.injEq, Prod.mk.injEq] at h
    intro s hs
    rw [← h.2.1] at hs
    cases hs
  | cons m0 ms =>
    simp only [collectBatch] at h
    split at h
    · simp only [Outcome.ok.injEq, Prod.mk.injEq] at h
      intro s hs
      rw [← h.2.1] at hs
      rcases List.mem_cons.1 hs with h1 | h2
      · cases h1
      · cases h2
    · split at h
      · split at h
        · cases h
        · next dm1 es1 heq =>
          simp only [Outcome.ok.injEq, Prod.mk.injEq] at h
          intro s hs
          rw [← h.2.1] at hs
          exact collectResults_card heq s hs
      · cases h

theorem collectBatch_faithful {rep : Reporter} {dm : DescMap} {b : List Metric}
    (hne : b ≠ []) (hf : FaithfulOn rep b) (hinv : CacheInv dm)
    (hgood : ∀ m ∈ b, PromValid m) :
    ∃ dm' es, collectBatch rep dm b = .ok (dm', es, [b]) ∧ CacheInv dm' ∧
      (∀ p ∈ dm, p ∈ dm') ∧ es.length = b.length ∧ (∀ e ∈ es, e.isSample = true) := by
  obtain ⟨rs, hok, hlen, hprop⟩ := hf
  have hvals : ∀ r ∈ rs, r.values ≠ [] := by
    intro r hr
    obtain ⟨⟨j, hj⟩, hg⟩ := List.mem_iff_get.1 hr
    rw [← hg]
    exact (hprop j hj).2
  have hids : ∀ r ∈ rs, ∃ j : Nat,
      atoi (r.id.data.drop 1) = some (j : Int) ∧ j < b.length := by
    intro r hr
    obtain ⟨⟨j, hj⟩, hg⟩ := List.mem_iff_get.1 hr
    refine ⟨j, ?_, ?_⟩
    · rw [← hg]
      exact (hprop j hj).1
    · rw [← hlen]
      exact hj
  obtain ⟨dm', ess, hres, hinv', hmono, hfa⟩ := collectResults_spec b rs dm hinv hgood hids
  obtain ⟨hflen, hfsamp⟩ := contrib_join_length hfa hvals
  cases b with
  | nil => exact absurd rfl hne
  | cons m0 ms =>
    refine ⟨dm', ess.flatten, ?_, hinv', hmono, ?_, hfsamp⟩
    · simp only [collectBatch, hok]
      rw [if_pos hlen]
      simp only [hres]
    · rw [hflen]
      exact hlen

/-! ## Lemmas: running all batches -/

theorem emit_sample_not_invalid {e : Emit} (h : e.isSample = true) : e.isInvalid = false := by
  cases e with
  | sample s => rfl
  | invalid d err => cases h

theorem runBatches_mono {rep : Reporter} :
    ∀ {bs : List (List Metric)} {dm dm' : DescMap} {es : List Emit}
      {cs : List (List Metric)},
      runBatches rep dm bs = .ok (dm', es, cs) → ∀ p ∈ dm, p ∈ dm' := by
  intro bs
  induction bs with
  | nil =>
    intro dm dm' es cs h
    simp only [runBatches, Outcome.ok.injEq, Prod.mk.injEq] at h
    rw [← h.1]
    exact fun p hp => hp
  | cons b bs ih =>
    intro dm dm' es cs h
    simp only [runBatches] at h
    split at h
    · cases h
    · next dm1 es1 cs1 heq1 =>
      split at h
      · cases h
      · next dm2 es2 cs2 heq2 =>
        simp only [Outcome.ok.injEq, Prod.mk.injEq] at h
        rw [← h.1]
        exact fun p hp => ih heq2 p (collectBatch_mono heq1 p hp)

theorem runBatches_card {rep : Reporter} :
    ∀ {bs : List (List Metric)} {dm dm' : DescMap} {es : List Emit}
      {cs : List (List Metric)},
      runBatches rep dm bs = .ok (dm', es, cs) →
      ∀ s, Emit.sample s ∈ es → s.labelValues.length = s.desc.labelNames.length := by
  intro bs
  induction bs with
  | nil =>
    intro dm dm' es cs h s hs
    simp only [runBatches, Outcome.ok.injEq, Prod.mk.injEq] at h
    rw [← h.2.1] at hs
    cases hs
  | cons b bs ih =>
    intro dm dm' es cs h s hs
    simp only [runBatches] at h
    split at h
    · cases h
    · next dm1 es1 cs1 heq1 =>
      split at h
      · cases h
      · next dm2 es2 cs2 heq2 =>
        simp only [Outcome.ok.injEq, Prod.mk.injEq] at h
        rw [← h.2.1] at hs
        rcases List.mem_append.1 hs with h1 | h2
        · exact collectBatch_card heq1 s h1
        · exact ih heq2 s h2

theorem runBatches_spec {rep : Reporter} (fails : List Metric → Bool)
    (errOf : List Metric → String) :
    ∀ (bs : List (List Metric)) (dm : DescMap),
      CacheInv dm → (∀ b ∈ bs, b ≠ []) → (∀ b ∈ bs, ∀ m ∈ b, PromValid m) →
      (∀ b ∈ bs, if fails b then rep.GetMetricsResults b = .error (errOf b)
                 else FaithfulOn rep b) →
      ∃ dm' es, runBatches rep dm bs = .ok (dm', es, bs) ∧ CacheInv dm' ∧
        (∀ p ∈ dm, p ∈ dm') ∧
        es.length = (bs.map fun b => if fails b then 1 else b.length).sum ∧
        es.countP Emit.isInvalid = bs.countP fails ∧
        es.countP Emit.isSample = ((bs.filter fun b => !fails b).map List.length).sum := by
  intro bs
  induction bs with
  | nil =>
    intro dm hinv _ _ _
    exact ⟨dm, [], rfl, hinv, fun p hp => hp, by simp, by simp, by simp⟩
  | cons b bs ih =>
    intro dm hinv hne hgood hrep
    have hbne : b ≠ [] := hne b (List.mem_cons_self _ _)
    have hb := hrep b (List.mem_cons_self _ _)
    have htne : ∀ q ∈ bs, q ≠ [] := fun q hq => hne q (List.mem_cons_of_mem _ hq)
    have htgood : ∀ q ∈ bs, ∀ m ∈ q, PromValid m :=
      fun q hq => hgood q (List.mem_cons_of_mem _ hq)
    have htrep : ∀ q ∈ bs, if fails q then rep.GetMetricsResults q = .error (errOf q)
        else FaithfulOn rep q := fun q hq => hrep q (List.mem_cons_of_mem _ hq)
    by_cases hf : fails b = true
    · rw [if_pos hf] at hb
      cases b with
      | nil => exact absurd rfl hbne
      | cons m0 ms =>
        obtain ⟨dm', es, hrun, hinv', hmono, hlen, hcinv, hcsamp⟩ :=
          ih dm hinv htne htgood htrep
        refine ⟨dm', .invalid errDesc (errOf (m0 :: ms)) :: es, ?_, hinv', hmono, ?_, ?_, ?_⟩
        · simp only [runBatches, collectBatch_error_eq hb, hrun]
          simp
        · simp [hf, hlen]
          omega
        · simp [List.countP_cons, hf, hcinv, Emit.isInvalid]
        · simp [List.countP_cons, hf, hcsamp, Emit.isSample]
    · rw [if_neg hf] at hb
      obtain ⟨dm1, es1, hbatch, hinv1, hmono1, hlen1, hsamp1⟩ :=
        collectBatch_faithful hbne hb hinv (hgood b (List.mem_cons_self _ _))
      obtain ⟨dm', es, hrun, hinv', hmono, hlen, hcinv, hcsamp⟩ :=
        ih dm1 hinv1 htne htgood htrep
      refine ⟨dm', es1 ++ es, ?_, hinv', fun p hp => hmono p (hmono1 p hp), ?_, ?_, ?_⟩
      · simp only [runBatches, hbatch, hrun]
        simp
      · simp [hf, hlen1, hlen]
      · have h0 : es1.countP Emit.isInvalid = 0 := by
          rw [List.countP_eq_zero]
          intro e he
          rw [emit_sample_not_invalid (hsamp1 e he)]
          exact fun hcontra => by cases hcontra
        simp [List.countP_append, h0, hf, hcinv]
      · have h1 : es1.countP Emit.isSample = es1.length := by
          rw [List.countP_eq_length]
          exact hsamp1
        simp [List.countP_append, h1, hlen1, hf, hcsamp]

/-! ## Lemmas: chunks -/

theorem chunks_nil (n : Nat) : chunks n ([] : List α) = [] := by
  simp [chunks]

theorem chunks_cons_eq (n : Nat) (hn : n ≠ 0) (a : α) (l : List α) :
    chunks n (a :: l) = (a :: l).take n :: chunks n ((a :: l).drop n) := by
  rw [chunks]
  simp [hn]

theorem chunks_of_ne_nil {l : List α} (hl : l ≠ []) (n : Nat) (hn : n ≠ 0) :
    chunks n l = l.take n :: chunks n (l.drop n) := by
  cases l with
  | nil => exact absurd rfl hl
  | cons a t => exact chunks_cons_eq n hn a t

theorem chunks_flatten_fuel (n : Nat) (hn : 0 < n) :
    ∀ (k : Nat) (l : List α), l.length ≤ k → (chunks n l).flatten = l := by
  intro k
  induction k with
  | zero =>
    intro l hl
    have hnil : l = [] := List.eq_nil_of_length_eq_zero (Nat.le_zero.1 hl)
    rw [hnil, chunks_nil]
    rfl
  | succ k ih =>
    intro l hl
    cases l with
    | nil => rw [chunks_nil]; rfl
    | cons a t =>
      have hl2 : t.length + 1 ≤ k + 1 := by simpa using hl
      rw [chunks_cons_eq n (by omega) a t, List.flatten_cons,
        ih ((a :: t).drop n) (by rw [List.length_drop]; simp; omega)]
      exact List.take_append_drop n (a :: t)

theorem chunks_flatten (n : Nat) (hn : 0 < n) (l : List α) : (chunks n l).flatten = l :=
  chunks_flatten_fuel n hn l.length l (Nat.le_refl _)

theorem chunks_props_fuel (n : Nat) (hn : 0 < n) :
    ∀ (k : Nat) (l : List α), l.length ≤ k →
      ∀ b ∈ chunks n l, b ≠ [] ∧ b.length ≤ n := by
  intro k
  induction k with
  | zero =>
    intro l hl b hb
    have hnil : l = [] := List.eq_nil_of_length_eq_zero (Nat.le_zero.1 hl)
    rw [hnil, chunks_nil] at hb
    cases hb
  | succ k ih =>
    intro l hl b hb
    cases l with
    | nil => rw [chunks_nil] at hb; cases hb
    | cons a t =>
      have hl2 : t.length + 1 ≤ k + 1 := by simpa using hl
      rw [chunks_cons_eq n (by omega) a t] at hb
      rcases List.mem_cons.1 hb with h1 | h2
      · subst h1
        constructor
        · obtain ⟨m, rfl⟩ : ∃ m, n = m + 1 := ⟨n - 1, by omega⟩
          rw [List.take_succ_cons]
          exact List.cons_ne_nil _ _
        · exact List.length_take_le _ _
      · exact ih ((a :: t).drop n) (by rw [List.length_drop]; simp; omega) b h2

theorem chunks_mem_mem {l : List α} {b : List α} {x : α} (hn : 0 < n)
    (hb : b ∈ chunks n l) (hx : x ∈ b) : x ∈ l := by
  rw [← chunks_flatten n hn l]
  exact List.mem_flatten.2 ⟨b, hb, hx⟩

/-! ## Lemmas: the batching loop of Collect -/

theorem take_set_succ {l : List α} {i : Nat} (a : α) (h : i < l.length) :
    (l.set i a).take (i + 1) = l.take i ++ [a] := by
  rw [List.set_eq_take_cons_drop a h]
  have hlt : (l.take i).length = i := by rw [List.length_take]; omega
  calc (l.take i ++ a :: l.drop (i + 1)).take (i + 1)
      = (l.take i ++ a :: l.drop (i + 1)).take ((l.take i).length + 1) := by rw [hlt]
    _ = l.take i ++ (a :: l.drop (i + 1)).take 1 := List.take_append 1
    _ = l.take i ++ [a] := by simp

theorem set_last {l : List α} {i : Nat} (a : α) (h : i + 1 = l.length) :
    l.set i a = l.take i ++ [a] := by
  rw [List.set_eq_take_cons_drop a (by omega)]
  rw [List.drop_eq_nil_of_le (by omega)]

theorem collectFold_acc (rep : Reporter) :
    ∀ (ms batch : List Metric) (i : Nat) (dm : DescMap) (es : List Emit)
      (cs : List (List Metric)),
      collectFold rep ms batch i dm es cs =
        match collectFold rep ms batch i dm [] [] with
        | .fatal e => .fatal e
        | .ok (b2, i2, dm2, es2, cs2) => .ok (b2, i2, dm2, es ++ es2, cs ++ cs2) := by
  intro ms
  induction ms with
  | nil =>
    intro batch i dm es cs
    simp [collectFold]
  | cons m ms ih =>
    intro batch i dm es cs
    simp only [collectFold]
    by_cases hi : i + 1 < batchSize
    · rw [if_pos hi, if_pos hi]
      exact ih _ _ _ es cs
    · rw [if_neg hi, if_neg hi]
      generalize hcb : collectBatch rep dm (batch.set i m) = cb
      cases cb with
      | fatal e => rfl
      | ok t =>
        obtain ⟨dm1, es1, cs1⟩ := t
        dsimp only
        rw [ih _ _ _ (es ++ es1) (cs ++ cs1), ih _ _ _ ([] ++ es1) ([] ++ cs1)]
        generalize collectFold rep ms (batch.set i m) 0 dm1 [] [] = f2
        cases f2 with
        | fatal e2 => rfl
        | ok t2 =>
          obtain ⟨b2, i2, dm2, es2, cs2⟩ := t2
          simp

theorem fold_final_eq (rep : Reporter) :
    ∀ (ms batch : List Metric) (i : Nat) (dm : DescMap),
      i ≤ batch.length → batch.length ≤ batchSize → i < batchSize →
      (i + ms.length ≤ batch.length ∨ batch.length = batchSize) →
      (match collectFold rep ms batch i dm [] [] with
       | .fatal e => .fatal e
       | .ok (b2, i2, dm2, es2, cs2) =>
         match collectBatch rep dm2 (b2.take i2) with
         | .fatal e => .fatal e
         | .ok (dm3, es3, cs3) => .ok (dm3, es2 ++ es3, cs2 ++ cs3)) =
      runBatches rep dm (chunks batchSize (batch.take i ++ ms)) := by
  intro ms
  induction ms with
  | nil =>
    intro batch i dm h1 h2 h3 _
    simp only [collectFold, List.append_nil]
    by_cases hi : i = 0
    · subst hi
      simp [collectBatch, chunks_nil, runBatches]
    · have hlen : (batch.take i).length = i := by rw [List.length_take]; omega
      have hne2 : batch.take i ≠ [] := by
        intro hc
        rw [hc] at hlen
        simp at hlen
        omega
      have h5 : (batch.take i).take batchSize = batch.take i :=
        List.take_of_length_le (by rw [hlen]; omega)
      have h6 : (batch.take i).drop batchSize = [] :=
        List.drop_eq_nil_of_le (by rw [hlen]; omega)
      rw [chunks_of_ne_nil hne2 _ (by decide), h5, h6, chunks_nil]
      simp only [runBatches]
      generalize collectBatch rep dm (batch.take i) = cb
      cases cb with
      | fatal e => rfl
      | ok t =>
        obtain ⟨dm3, es3, cs3⟩ := t
        simp
  | cons m ms ih =>
    intro batch i dm h1 h2 h3 h4
    have hilt : i < batch.length := by
      rcases h4 with h4 | h4
      · simp only [List.length_cons] at h4
        omega
      · omega
    simp only [collectFold]
    by_cases hi : i + 1 < batchSize
    · rw [if_pos hi]
      have hset : (batch.set i m).take (i + 1) = batch.take i ++ [m] :=
        take_set_succ m hilt
      have h4n : (i + 1) + ms.length ≤ (batch.set i m).length ∨
          (batch.set i m).length = batchSize := by
        rw [List.length_set]
        rcases h4 with h4 | h4
        · left
          simp only [List.length_cons] at h4
          omega
        · right
          exact h4
      have hres := ih (batch.set i m) (i + 1) dm
        (by rw [List.length_set]; omega) (by rw [List.length_set]; exact h2) hi h4n
      rw [hres, hset, List.append_assoc]
      rfl
    · have hieq : i + 1 = batchSize := by omega
      have hlenb : batch.length = batchSize := by
        rcases h4 with h4 | h4
        · simp only [List.length_cons] at h4
          omega
        · exact h4
      rw [if_neg hi]
      have hfull : batch.set i m = batch.take i ++ [m] := set_last m (by omega)
      have hplen : (batch.take i).length = i := by rw [List.length_take]; omega
      have htake : (batch.take i ++ m :: ms).take batchSize = batch.take i ++ [m] := by
        calc (batch.take i ++ m :: ms).take batchSize
            = (batch.take i ++ m :: ms).take ((batch.take i).length + 1) := by
              rw [show batchSize = (batch.take i).length + 1 by omega]
          _ = batch.take i ++ (m :: ms).take 1 := List.take_append 1
          _ = batch.take i ++ [m] := by simp
      have hdrop : (batch.take i ++ m :: ms).drop batchSize = ms := by
        calc (batch.take i ++ m :: ms).drop batchSize
            = (batch.take i ++ m :: ms).drop ((batch.take i).length + 1) := by
              rw [show batchSize = (batch.take i).length + 1 by omega]
          _ = (m :: ms).drop 1 := List.drop_append 1
          _ = ms := rfl
      have hch : chunks batchSize (batch.take i ++ m :: ms)
          = (batch.set i m) :: chunks batchSize ms := by
        rw [chunks_of_ne_nil (by simp) _ (by decide), htake, hdrop, hfull]
      rw [hch]
      simp only [runBatches]
      generalize hcb : collectBatch rep dm (batch.set i m) = cb
      cases cb with
      | fatal e => rfl
      | ok t =>
        obtain ⟨dm1, es1, cs1⟩ := t
        dsimp only
        rw [collectFold_acc rep ms (batch.set i m) 0 dm1 ([] ++ es1) ([] ++ cs1)]
        have hres := ih (batch.set i m) 0 dm1 (by omega)
          (by rw [List.length_set]; exact h2) (by decide)
          (Or.inr (by rw [List.length_set]; exact hlenb))
        rw [List.take_zero, List.nil_append] at hres
        rw [← hres]
        generalize collectFold rep ms (batch.set i m) 0 dm1 [] [] = f2
        cases f2 with
        | fatal e2 => rfl
        | ok t2 =>
          obtain ⟨b2, i2, dm2, es2, cs2⟩ := t2
          dsimp only
          generalize collectBatch rep dm2 (b2.take i2) = cb2
          cases cb2 with
          | fatal e3 => rfl
          | ok t3 =>
            obtain ⟨dm3, es3, cs3⟩ := t3
            simp

theorem collect_eq {c : Collector} {metrics : List Metric}
    (hl : c.reporter.ListMetrics c.«namespace» c.metricName = .ok metrics) :
    Collect c =
      match runBatches c.reporter c.descMap (chunks batchSize metrics) with
      | .fatal e => .fatal e
      | .ok (dm, es, cs) => .ok ({ c with descMap := dm }, es, cs) := by
  have hres := fold_final_eq c.reporter metrics
    (List.replicate (if metrics.length > batchSize then batchSize else metrics.length)
      { «namespace» := "", metricName := "", dimensions := [] })
    0 c.descMap (Nat.zero_le _)
    (by
      rw [List.length_replicate]
      by_cases hc : metrics.length > batchSize
      · simp [hc]
      · simp [hc]
        omega)
    (by decide)
    (by
      rw [List.length_replicate]
      by_cases hc : metrics.length > batchSize
      · right
        simp [hc]
      · left
        simp [hc])
  rw [List.take_zero, List.nil_append] at hres
  simp only [Collect, hl]
  rw [← hres]
  generalize collectFold c.reporter metrics
    (List.replicate (if metrics.length > batchSize then batchSize else metrics.length)
      { «namespace» := "", metricName := "", dimensions := [] })
    0 c.descMap [] [] = f
  cases f with
  | fatal e => rfl
  | ok t =>
    obtain ⟨b2, i2, dm2, es2, cs2⟩ := t
    dsimp only
    generalize collectBatch c.reporter dm2 (b2.take i2) = cb
    cases cb with
    | fatal e => rfl
    | ok t2 =>
      obtain ⟨dm3, es3, cs3⟩ := t2
      rfl

theorem Collect_mono {c c' : Collector} {es : List Emit} {cs : List (List Metric)}
    (h : Collect c = .ok (c', es, cs)) : ∀ p ∈ c.descMap, p ∈ c'.descMap := by
  cases hl : c.reporter.ListMetrics c.«namespace» c.metricName with
  | error e =>
    simp only [Collect, hl, Outcome.ok.injEq, Prod.mk.injEq] at h
    rw [← h.1]
    exact fun p hp => hp
  | ok metrics =>
    rw [collect_eq hl] at h
    split at h
    · cases h
    · next dm es2 cs2 heq =>
      simp only [Outcome.ok.injEq, Prod.mk.injEq] at h
      rw [← h.1]
      exact runBatches_mono heq

theorem Collect_card {c c' : Collector} {es : List Emit} {cs : List (List Metric)}
    (h : Collect c = .ok (c', es, cs)) :
    ∀ s, Emit.sample s ∈ es → s.labelValues.length = s.desc.labelNames.length := by
  cases hl : c.reporter.ListMetrics c.«namespace» c.metricName with
  | error e =>
    simp only [Collect, hl, Outcome.ok.injEq, Prod.mk.injEq] at h
    intro s hs
    rw [← h.2.1] at hs
    rcases List.mem_cons.1 hs with h1 | h2
    · cases h1
    · cases h2
  | ok metrics =>
    rw [collect_eq hl] at h
    split at h
    · cases h
    · next dm es2 cs2 heq =>
      simp only [Outcome.ok.injEq, Prod.mk.injEq] at h
      intro s hs
      rw [← h.2.1] at hs
      exact runBatches_card heq s hs

/-! ## Lemmas: the concrete collaborators -/

theorem faithfulResults_get (b : List Metric) (j : Nat)
    (h : j < (faithfulResults b).length) :
    (faithfulResults b).get ⟨j, h⟩ = { id := posId j, values := [1.0] } := by
  simp [faithfulResults]

theorem faithfulOn_of_results {rep : Reporter} {b : List Metric}
    (h : rep.GetMetricsResults b = .ok (faithfulResults b)) : FaithfulOn rep b := by
  refine ⟨faithfulResults b, h, by simp [faithfulResults], ?_⟩
  intro j hj
  rw [faithfulResults_get b j hj]
  exact ⟨atoi_posId j, by simp⟩

theorem faithfulOn_listRep (ms : List Metric) (b : List Metric) :
    FaithfulOn (listRep ms) b :=
  faithfulOn_of_results rfl

theorem faithfulOn_failFullRep (ms : List Metric) (b : List Metric)
    (h : b.length ≠ batchSize) : FaithfulOn (failFullRep ms) b := by
  apply faithfulOn_of_results
  simp only [failFullRep]
  rw [if_neg h]

theorem promValid_demoMetrics (n : Nat) : ∀ m ∈ demoMetrics n, PromValid m := by
  intro m hm
  simp only [demoMetrics, List.mem_map, List.mem_range] at hm
  obtain ⟨k, _, rfl⟩ := hm
  exact rfl

theorem demoMetrics_length (n : Nat) : (demoMetrics n).length = n := by
  simp [demoMetrics]

theorem chunks_demo_two (n : Nat) (h1 : batchSize < n) (h2 : n ≤ 2 * batchSize) :
    chunks batchSize (demoMetrics n) =
      [(demoMetrics n).take batchSize, (demoMetrics n).drop batchSize] ∧
    ((demoMetrics n).take batchSize).length = batchSize ∧
    ((demoMetrics n).drop batchSize).length = n - batchSize := by
  have hlen : (demoMetrics n).length = n := demoMetrics_length n
  have hbpos : (0 : Nat) < batchSize := by decide
  have htl : ((demoMetrics n).take batchSize).length = batchSize := by
    rw [List.length_take, hlen]
    omega
  have hdl : ((demoMetrics n).drop batchSize).length = n - batchSize := by
    rw [List.length_drop, hlen]
  refine ⟨?_, htl, hdl⟩
  rw [chunks_of_ne_nil (by intro hc; rw [hc] at hlen; simp at hlen; omega) _ (by decide)]
  congr 1
  rw [chunks_of_ne_nil (by intro hc; rw [hc] at hdl; simp at hdl; omega) _ (by decide)]
  rw [List.take_of_length_le (by rw [hdl]; omega)]
  congr 1
  have : (((demoMetrics n).drop batchSize).drop batchSize).length = 0 := by
    rw [List.length_drop, hdl]
    omega
  rw [List.eq_nil_of_length_eq_zero this, chunks_nil]

/-! ## The claims -/

/-- C1 (amended): for a listing of C metric identities whose names pass
Prometheus validation, with a Reporter honouring the batch contract and
every result carrying at least one value, `Collect` emits exactly C data
samples; the upstream calls are precisely the consecutive chunks of at
most `batchSize` identities (the final short chunk included, an empty
listing producing zero batch fetches). -/
theorem collect_batching_lossless (c : Collector) (metrics : List Metric)
    (hl : c.reporter.ListMetrics c.«namespace» c.metricName = .ok metrics)
    (hgood : ∀ m ∈ metrics, PromValid m)
    (hinv : CacheInv c.descMap)
    (hrep : ∀ b ∈ chunks batchSize metrics, FaithfulOn c.reporter b) :
    ∃ c' es, Collect c = .ok (c', es, chunks batchSize metrics) ∧
      es.length = metrics.length ∧
      (∀ e ∈ es, e.isSample = true) ∧
      (chunks batchSize metrics).flatten = metrics ∧
      (∀ b ∈ chunks batchSize metrics, b ≠ [] ∧ b.length ≤ batchSize) := by
  have hprops := chunks_props_fuel batchSize (by decide) metrics.length metrics
    (Nat.le_refl _)
  have hne : ∀ b ∈ chunks batchSize metrics, b ≠ [] := fun b hb => (hprops _ hb).1
  have hbgood : ∀ b ∈ chunks batchSize metrics, ∀ m ∈ b, PromValid m :=
    fun b hb m hm => hgood m (chunks_mem_mem (by decide) hb hm)
  obtain ⟨dm', es, hrun, _, _, hlen, _, hcsamp⟩ :=
    runBatches_spec (fun _ => false) (fun _ => "") (chunks batchSize metrics)
      c.descMap hinv hne hbgood (by intro b hb; simpa using hrep b hb)
  have hsum : ((chunks batchSize metrics).map List.length).sum = metrics.length := by
    rw [← List.length_flatten]
    rw [chunks_flatten _ (by decide)]
  have hlen2 : es.length = metrics.length := by
    rw [hlen, ← hsum]
    simp
  refine ⟨{ c with descMap := dm' }, es, ?_, hlen2, ?_,
    chunks_flatten _ (by decide) _, hprops⟩
  · rw [collect_eq hl, hrun]
  · have h1 : es.countP Emit.isSample = es.length := by
      rw [hlen2, ← hsum]
      simpa using hcsamp
    exact List.countP_eq_length.mp h1

/-- Witness for C1: 567 valid identities against a contract-honouring
Reporter produce exactly 567 samples in two upstream calls of 500 and 67. -/
theorem collect_batching_lossless_witness :
    ∃ c' es, Collect c1wCollector = .ok (c', es, chunks batchSize (demoMetrics 567)) ∧
      es.length = 567 ∧
      (chunks batchSize (demoMetrics 567)).map List.length = [500, 67] := by
  obtain ⟨c', es, h1, h2, _, _, _⟩ :=
    collect_batching_lossless c1wCollector (demoMetrics 567) rfl
      (promValid_demoMetrics 567) (by intro k d h; cases h)
      (fun b _ => faithfulOn_listRep (demoMetrics 567) b)
  obtain ⟨hch, htl, hdl⟩ := chunks_demo_two 567 (by decide) (by decide)
  refine ⟨c', es, h1, ?_, ?_⟩
  · rw [h2, demoMetrics_length]
  · rw [hch]
    simp only [List.map_cons, List.map_nil, htl, hdl]
    rfl

/-- Counterexample to C1 as stated: CloudWatch permits the dimension name
`"a b"`, which is not a valid Prometheus label name, so the very first
emission panics (`MustNewConstMetric` on an invalid descriptor) and a
scrape of one identity with one returned value yields no sample at all —
even though the Reporter honoured its contract. -/
theorem collect_batching_counterexample :
    Collect badDimCollector = .fatal ("invalid desc") ∧
    FaithfulOn badDimCollector.reporter [badDimMetric] := by
  exact ⟨rfl, faithfulOn_listRep _ _⟩

/-- C2: when the listing call fails, `Collect` emits exactly one
error-signalling sample carrying the failure and returns at once:
no batch fetch is issued and no data sample is emitted. -/
theorem list_failure_single_error (c : Collector) (e : String)
    (hl : c.reporter.ListMetrics c.«namespace» c.metricName = .error e) :
    Collect c = .ok (c, [Emit.invalid errDesc e], []) := by
  simp only [Collect, hl]

/-- Witness for C2: a collector whose listing fails with `"nope"`. -/
theorem list_failure_single_error_witness :
    Collect c2wCollector = .ok (c2wCollector, [Emit.invalid errDesc ("nope")], []) :=
  list_failure_single_error c2wCollector ("nope") rfl

/-- C3: a `GetMetricsResults` failure on one batch contributes exactly
one error sample for that batch while every other, successfully
processed batch still contributes its samples: with a per-batch failure
predicate, the invalid-sample count equals the number of failing
batches and the data-sample count is the total size of the non-failing
batches. -/
theorem batch_failure_isolated (c : Collector) (metrics : List Metric)
    (fails : List Metric → Bool) (errOf : List Metric → String)
    (hl : c.reporter.ListMetrics c.«namespace» c.metricName = .ok metrics)
    (hgood : ∀ m ∈ metrics, PromValid m)
    (hinv : CacheInv c.descMap)
    (hrep : ∀ b ∈ chunks batchSize metrics,
      if fails b then c.reporter.GetMetricsResults b = .error (errOf b)
      else FaithfulOn c.reporter b) :
    ∃ c' es, Collect c = .ok (c', es, chunks batchSize metrics) ∧
      es.countP Emit.isInvalid = (chunks batchSize metrics).countP fails ∧
      es.countP Emit.isSample =
        (((chunks batchSize metrics).filter fun b => !fails b).map List.length).sum ∧
      es.length =
        ((chunks batchSize metrics).map fun b => if fails b then 1 else b.length).sum := by
  have hprops := chunks_props_fuel batchSize (by decide) metrics.length metrics
    (Nat.le_refl _)
  have hne : ∀ b ∈ chunks batchSize metrics, b ≠ [] := fun b hb => (hprops _ hb).1
  have hbgood : ∀ b ∈ chunks batchSize metrics, ∀ m ∈ b, PromValid m :=
    fun b hb m hm => hgood m (chunks_mem_mem (by decide) hb hm)
  obtain ⟨dm', es, hrun, _, _, hlen, hcinv, hcsamp⟩ :=
    runBatches_spec fails errOf (chunks batchSize metrics) c.descMap hinv hne hbgood hrep
  refine ⟨{ c with descMap := dm' }, es, ?_, hcinv, hcsamp, hlen⟩
  rw [collect_eq hl, hrun]

/-- Witness for C3: 501 identities make two batches; the full batch of
500 fails (one error sample) while the final batch of one still yields
its sample. -/
theorem batch_failure_isolated_witness :
    ∃ c' es, Collect c3wCollector = .ok (c', es, chunks batchSize (demoMetrics 501)) ∧
      es.countP Emit.isInvalid = 1 ∧ es.countP Emit.isSample = 1 ∧ es.length = 2 := by
  obtain ⟨hch, htl, hdl⟩ := chunks_demo_two 501 (by decide) (by decide)
  obtain ⟨c', es, h1, h2, h3, h4⟩ :=
    batch_failure_isolated c3wCollector (demoMetrics 501)
      (fun b => b.length == batchSize) (fun _ => "boom") rfl
      (promValid_demoMetrics 501) (by intro k d h; cases h)
      (by
        intro b _
        dsimp only
        by_cases hc : b.length = batchSize
        · rw [if_pos (by simp [hc])]
          show (failFullRep (demoMetrics 501)).GetMetricsResults b = .error ("boom")
          simp only [failFullRep]
          rw [if_pos hc]
        · rw [if_neg (by simp [hc])]
          exact faithfulOn_failFullRep (demoMetrics 501) b hc)
  have h5 : ((List.take batchSize (demoMetrics 501)).length == batchSize) = true := by
    rw [htl]
    simp
  have h6 : ((List.drop batchSize (demoMetrics 501)).length == batchSize) = false := by
    rw [hdl]
    decide
  refine ⟨c', es, h1, ?_, ?_, ?_⟩
  · rw [h2, hch]
    simp [List.countP_cons, List.length_take, List.length_drop, demoMetrics_length,
      batchSize]
  · rw [h3, hch]
    simp [List.filter_cons, List.length_take, List.length_drop, demoMetrics_length,
      batchSize]
  · rw [h4, hch]
    simp [List.length_take, List.length_drop, demoMetrics_length, batchSize]

/-- C4 (amended): in a successfully fetched batch with matching counts,
decodable ids and Prometheus-valid names, every `QueryResult` with an
empty value sequence contributes zero samples (silently skipped, no
error sample) and every one with at least one value contributes exactly
one sample carrying the first value. -/
theorem result_contribution (rep : Reporter) (dm : DescMap) (b : List Metric)
    (rs : List QueryResult)
    (hne : b ≠ []) (hok : rep.GetMetricsResults b = .ok rs)
    (hlen : rs.length = b.length)
    (hids : ∀ r ∈ rs, ∃ j : Nat, atoi (r.id.data.drop 1) = some (j : Int) ∧ j < b.length)
    (hinv : CacheInv dm) (hgood : ∀ m ∈ b, PromValid m) :
    ∃ dm' ess, collectBatch rep dm b = .ok (dm', ess.flatten, [b]) ∧
      List.Forall₂ (fun (r : QueryResult) (es : List Emit) =>
        (r.values = [] ∧ es = []) ∨
          ∃ s v vs, r.values = v :: vs ∧ es = [Emit.sample s] ∧ s.value = v) rs ess := by
  obtain ⟨dm', ess, hres, _, _, hfa⟩ := collectResults_spec b rs dm hinv hgood hids
  cases b with
  | nil => exact absurd rfl hne
  | cons m0 ms =>
    refine ⟨dm', ess, ?_, hfa⟩
    simp only [collectBatch, hok]
    rw [if_pos hlen]
    simp only [hres]

/-- Witness for C4: a two-identity batch whose first result has no
values and whose second has one value contributes zero and one samples
respectively. -/
theorem result_contribution_witness :
    ∃ dm' ess, collectBatch mixValuesRep [] [pairM0, pairM1] = .ok (dm', ess.flatten, [[pairM0, pairM1]]) ∧
      List.Forall₂ (fun (r : QueryResult) (es : List Emit) =>
        (r.values = [] ∧ es = []) ∨
          ∃ s v vs, r.values = v :: vs ∧ es = [Emit.sample s] ∧ s.value = v)
        [{ id := "n0", values := [] }, { id := "n1", values := [2.5] }] ess := by
  apply result_contribution mixValuesRep [] [pairM0, pairM1]
    [{ id := "n0", values := [] }, { id := "n1", values := [2.5] }]
    (by simp) rfl rfl
  · intro r hr
    rcases List.mem_cons.1 hr with rfl | hr2
    · exact ⟨0, by decide, by decide⟩
    · rcases List.mem_cons.1 hr2 with rfl | hr3
      · exact ⟨1, by decide, by decide⟩
      · cases hr3
  · intro k d h
    cases h
  · intro m hm
    rcases List.mem_cons.1 hm with rfl | hm2
    · exact rfl
    · rcases List.mem_cons.1 hm2 with rfl | hm3
      · exact rfl
      · cases hm3

/-- Counterexample to C4 as stated: one contract-honouring result with a
value, but its identity's dimension name `"a b"` fails Prometheus label
validation, so the batch panics and the valued result contributes no
sample. -/
theorem result_contribution_counterexample :
    collectBatch (listRep []) [] [badDimMetric] = .fatal ("invalid desc") ∧
    (listRep []).GetMetricsResults [badDimMetric] =
      .ok [{ id := "n0", values := [1.0] }] := by
  exact ⟨rfl, rfl⟩

/-- C5: for a nonempty batch whose fetch succeeded, a result count
differing from the batch count panics (a fatal contract violation, not
an error sample), while equal counts proceed into per-result decoding
with no such fatal condition raised by this check. -/
theorem result_count_contract (rep : Reporter) (dm : DescMap) (m0 : Metric)
    (ms : List Metric) (rs : List QueryResult)
    (hok : rep.GetMetricsResults (m0 :: ms) = .ok rs) :
    (rs.length ≠ (m0 :: ms).length →
      collectBatch rep dm (m0 :: ms) =
        .fatal ("not same length: " ++ toString rs.length ++ " != "
          ++ toString (m0 :: ms).length)) ∧
    (rs.length = (m0 :: ms).length →
      collectBatch rep dm (m0 :: ms) =
        match collectResults dm (m0 :: ms) rs with
        | .fatal e => .fatal e
        | .ok (dm1, es) => .ok (dm1, es, [m0 :: ms])) := by
  constructor
  · intro hne
    simp only [collectBatch, hok]
    rw [if_neg hne]
  · intro heq
    simp only [collectBatch, hok]
    rw [if_pos heq]

/-- Witness for C5: a Reporter that returns zero results for a
one-element batch makes batch processing panic with the count message. -/
theorem result_count_contract_witness :
    collectBatch wrongCountRep [] [pairM0] = .fatal ("not same length: 0 != 1") := by
  have h := (result_count_contract wrongCountRep [] pairM0 [] [] rfl).1 (by decide)
  rw [h]
  rfl

/-- C6: the originating batch position of a result is recovered by
parsing everything after the first character of its id as an integer;
an id whose suffix fails to parse, or parses outside the batch, panics
(stopping processing) instead of producing a per-batch error sample. -/
theorem id_decode_contract (dm : DescMap) (metrics : List Metric) (r : QueryResult)
    (rest : List QueryResult) :
    ((∀ j : Int, atoi (r.id.data.drop 1) = some j →
        j < 0 ∨ (metrics.length : Int) ≤ j) →
      ∃ msg, collectResults dm metrics (r :: rest) = .fatal msg) ∧
    (∀ j : Nat, atoi (r.id.data.drop 1) = some (j : Int) → ∀ h : j < metrics.length,
      collectResults dm metrics (r :: rest) =
        match r.values with
        | [] => collectResults dm metrics rest
        | v :: _ =>
          match collectMetric dm (metrics.get ⟨j, h⟩) v with
          | .fatal e => .fatal e
          | .ok (dm1, e) =>
            match collectResults dm1 metrics rest with
            | .fatal e2 => .fatal e2
            | .ok (dm2, es) => .ok (dm2, e :: es)) := by
  constructor
  · intro hbad
    cases hA : atoi (r.id.data.drop 1) with
    | none =>
      refine ⟨"invalid id", ?_⟩
      simp only [collectResults, hA]
    | some j =>
      refine ⟨"index out of range", ?_⟩
      simp only [collectResults, hA]
      rw [dif_neg]
      rintro ⟨h1, h2⟩
      rcases hbad j hA with hj | hj
      · omega
      · have hcast : (j.toNat : Int) = j := Int.toNat_of_nonneg h1
        have hlen : (j.toNat : Int) < (metrics.length : Int) := by
          exact_mod_cast h2
        omega
  · intro j hA h
    simp only [collectResults, hA]
    rw [dif_pos ⟨Int.natCast_nonneg j, by simpa using h⟩]
    simp only [Int.toNat_ofNat]

/-- Witness for C6: in a batch of two identities, a result id `"n5"`
parses to position 5, which is out of range, and processing panics. -/
theorem id_decode_contract_witness :
    ∃ msg, collectResults [] [pairM0, pairM1] [{ id := "n5", values := [1.0] }]
      = .fatal msg := by
  refine (id_decode_contract [] [pairM0, pairM1] _ []).1 ?_
  intro j hA
  have h5 : atoi (({ id := "n5", values := [1.0] } : QueryResult).id.data.drop 1)
      = some (5 : Int) := by decide
  rw [h5] at hA
  injection hA with hA
  right
  rw [← hA]
  decide

/-- C7: a sample emitted for a metric that misses the descriptor cache
carries a freshly built descriptor whose public name replaces every
character outside `[A-Za-z0-9_:]` of the raw namespace and raw metric
name with `_`, snake-cases each part and joins them with `_`; its label
names are the dimension names verbatim, in Reporter order, unsorted. -/
theorem descriptor_naming (dm : DescMap) (m : Metric) (v : Float) (dm' : DescMap)
    (s : Sample)
    (hmiss : List.lookup (metricKey m) dm = none)
    (h : collectMetric dm m v = .ok (dm', .sample s)) :
    s.desc.fqName = snakeCase (replaceInvalid m.«namespace») ++ "_"
        ++ snakeCase (replaceInvalid m.metricName) ∧
    s.desc.labelNames = m.dimensions.map (·.name) ∧
    s.labelValues = m.dimensions.map (·.value) ∧
    dm' = (metricKey m, s.desc) :: dm := by
  rw [collectMetric_miss_eq v hmiss] at h
  by_cases hv : descValid (fqNameFor m) (m.dimensions.map (·.name)) = true
  · rw [if_pos hv] at h
    simp only [Outcome.ok.injEq, Prod.mk.injEq, Emit.sample.injEq] at h
    obtain ⟨hdm, hs⟩ := h
    rw [← hs, ← hdm]
    exact ⟨rfl, rfl, rfl, rfl⟩
  · rw [if_neg hv] at h
    cases h

/-- Witness for C7: namespace `A` and name `B` with one dimension `l`
produce the descriptor name `a_b` with label names `["l"]`. -/
theorem descriptor_naming_witness :
    ∃ dm' s, collectMetric [] pairM0 1.0 = .ok (dm', Emit.sample s) ∧
      s.desc.fqName = snakeCase (replaceInvalid pairM0.«namespace») ++ "_"
        ++ snakeCase (replaceInvalid pairM0.metricName) ∧
      s.desc.labelNames = pairM0.dimensions.map (·.name) := by
  have h : collectMetric [] pairM0 1.0 =
      .ok ([(metricKey pairM0, newDescFor pairM0)],
        Emit.sample { desc := newDescFor pairM0
                    , labelValues := pairM0.dimensions.map (·.value), value := 1.0 }) := rfl
  obtain ⟨h1, h2, _, _⟩ := descriptor_naming [] pairM0 1.0 _ _ rfl h
  exact ⟨_, _, h, h1, h2⟩

/-- C8: the descriptor cache is keyed by the dimension-name sequence
only: after a first metric caches a fresh descriptor built from its own
namespace and name, any later metric with the same dimension-name
sequence — namespace and metric name notwithstanding — reuses that same
cached descriptor and leaves the cache unchanged; and `Collect` never
removes cache entries, so the cache persists across invocations on the
same collector. -/
theorem descriptor_cache_reuse :
    (∀ (dm : DescMap) (m1 m2 : Metric) (v1 v2 : Float) (dm1 : DescMap) (s1 : Sample),
      m1.dimensions.map (·.name) = m2.dimensions.map (·.name) →
      List.lookup (metricKey m1) dm = none →
      collectMetric dm m1 v1 = .ok (dm1, .sample s1) →
      ∃ s2, collectMetric dm1 m2 v2 = .ok (dm1, .sample s2) ∧ s2.desc = s1.desc ∧
        s1.desc.fqName = fqNameFor m1) ∧
    (∀ (c c' : Collector) (es : List Emit) (cs : List (List Metric)),
      Collect c = .ok (c', es, cs) → ∀ p ∈ c.descMap, p ∈ c'.descMap) := by
  constructor
  · intro dm m1 m2 v1 v2 dm1 s1 hnames hmiss h
    rw [collectMetric_miss_eq v1 hmiss] at h
    by_cases hv : descValid (fqNameFor m1) (m1.dimensions.map (·.name)) = true
    · rw [if_pos hv] at h
      simp only [Outcome.ok.injEq, Prod.mk.injEq, Emit.sample.injEq] at h
      obtain ⟨hdm, hs⟩ := h
      have hkey : metricKey m2 = metricKey m1 := by
        unfold metricKey
        rw [← hnames]
      have hlp : List.lookup (metricKey m2) dm1 = some (newDescFor m1) := by
        rw [← hdm, hkey]
        simp [List.lookup]
      have hlen : m2.dimensions.length = (newDescFor m1).labelNames.length := by
        have hc := congrArg List.length hnames
        simp only [List.length_map] at hc
        simpa [newDescFor] using hc.symm
      have hv2 : descValid (newDescFor m1).fqName (newDescFor m1).labelNames = true := hv
      refine ⟨_, collectMetric_hit_eq v2 hlp hv2 hlen, ?_, ?_⟩
      · rw [← hs]
      · rw [← hs]
        rfl
    · rw [if_neg hv] at h
      cases h
  · intro c c' es cs h
    exact Collect_mono h

/-- Witness for C8: after caching the `AWS/EC2 NetworkIn` descriptor
under the label shape `["InstanceId"]`, the differently-named
`AWS/EBS VolumeWriteBytes` metric with the same shape reuses it
verbatim with the cache unchanged. -/
theorem descriptor_cache_reuse_witness :
    ∃ s2, collectMetric [(metricKey ec2Metric, newDescFor ec2Metric)] ebsMetric 2.0 =
        .ok ([(metricKey ec2Metric, newDescFor ec2Metric)], Emit.sample s2) ∧
      s2.desc = newDescFor ec2Metric := by
  obtain ⟨s2, h1, h2, _⟩ := descriptor_cache_reuse.1 [] ec2Metric ebsMetric 1.0 2.0
    [(metricKey ec2Metric, newDescFor ec2Metric)]
    { desc := newDescFor ec2Metric
    , labelValues := ec2Metric.dimensions.map (·.value), value := 1.0 }
    rfl rfl rfl
  refine ⟨s2, h1, ?_⟩
  rw [h2]

/-- C9: every sample `Collect` emits has a label value sequence of the
same length as the label name sequence of the descriptor it is emitted
under (emission goes through the `MustNewConstMetric` cardinality check,
which panics instead of emitting on a mismatch). -/
theorem sample_label_cardinality (c c' : Collector) (es : List Emit)
    (cs : List (List Metric)) (s : Sample)
    (h : Collect c = .ok (c', es, cs)) (hs : Emit.sample s ∈ es) :
    s.labelValues.length = s.desc.labelNames.length :=
  Collect_card h s hs

/-- Witness for C9: the single sample of a one-metric scrape has one
label value under a one-label descriptor. -/
theorem sample_label_cardinality_witness :
    (Sample.mk pairDesc ["m0"] 1.0).labelValues.length =
      (Sample.mk pairDesc ["m0"] 1.0).desc.labelNames.length := by
  have h : Collect oneCollector =
      .ok (oneCollectorAfter, [Emit.sample (Sample.mk pairDesc ["m0"] 1.0)], [[pairM0]]) :=
    rfl
  exact sample_label_cardinality oneCollector oneCollectorAfter _ _ _ h
    (List.mem_singleton.2 rfl)

/-- C10: result-id decoding checks only the count and that the characters
after the first character parse to an in-range integer: an id `"x1"` and
a duplicated index `"n1"` are both accepted, so a contract-violating
result set emits two samples for the second identity and none for the
first, with no fatal condition. -/
theorem id_decode_laxity :
    collectBatch dupIdRep [] [pairM0, pairM1] =
      .ok ([("l", pairDesc)],
        [Emit.sample (Sample.mk pairDesc ["m1"] 1.0),
         Emit.sample (Sample.mk pairDesc ["m1"] 2.0)],
        [[pairM0, pairM1]]) := by
  rfl
